import Mathlib

/-!
# Verification of the encrypted note store (vscode-xnotes)

Shallow embedding of the core of the repository:

* `EncryptionService.encrypt` / `EncryptionService.decrypt`
  (src/unnamed/part_000) — the envelope construction: scrypt key
  derivation, AES-256-GCM, and the JSON record with hex-encoded fields
  `iv`, `content`, `tag`.  The JSON string produced by
  `JSON.stringify` / consumed by `JSON.parse` is modelled at the level
  of the parsed object: an association list from field names to string
  values, which is exactly the data the source touches.
  The AES-256-GCM primitive and scrypt themselves are external library
  code (Node `crypto`), not part of the repository; their byte-level
  behaviour is modelled from the spec (see the doc comments on
  `deriveKey`, `ks`, `tagBytes`).

* `NotesProvider.openNote`, the `onDidCloseTextDocument` handler
  (modelled as `NotesProvider.closeNote`) and
  `NotesProvider.saveEncryptedNote` (src/src/notesProvider.ts) — the
  staging lifecycle, modelled as explicit state passing over a system
  state holding the `openFiles` session map, the filesystem contents
  and the set of live watcher registrations.  Each operation also
  returns the list of filesystem operations it performed, in order.
-/

/-- The lowercase hex digit character for a value `d < 16`, the
alphabet of Node's `buf.toString('hex')`: code 48 is `'0'` and code 97
is `'a'` (out-of-range values never arise from byte splitting but
default to `'0'`). -/
def hexDigitChar (d : Nat) : Char :=
  if d < 10 then Char.ofNat (48 + d)
  else if d < 16 then Char.ofNat (87 + d)
  else '0'

/-- The numeric value of a lowercase hex digit character, `none` for a
non-hex-digit. -/
def hexVal (c : Char) : Option Nat :=
  if 48 ≤ c.toNat ∧ c.toNat ≤ 57 then some (c.toNat - 48)
  else if 97 ≤ c.toNat ∧ c.toNat ≤ 102 then some (c.toNat - 87)
  else none

/-- Hex encoding of a byte list, as `buf.toString('hex')` does: two
lowercase hex characters per byte. -/
def hexEncodeL : List Nat → List Char
  | [] => []
  | b :: rest => hexDigitChar (b / 16) :: hexDigitChar (b % 16) :: hexEncodeL rest

/-- Hex encoding producing a `String` (the JSON field value). -/
def hexEncode (bs : List Nat) : String := String.mk (hexEncodeL bs)

/-- Hex decoding of a character list back to bytes, as
`Buffer.from(s, 'hex')` does on well-formed input. -/
def hexDecodeL : List Char → Option (List Nat)
  | [] => some []
  | [_] => none
  | c1 :: c2 :: rest =>
    match hexVal c1, hexVal c2, hexDecodeL rest with
    | some h, some l, some bs => some ((16 * h + l) :: bs)
    | _, _, _ => none

/-- Hex decoding of a JSON string field value. -/
def hexDecode (s : String) : Option (List Nat) := hexDecodeL s.data

/-- Test that every character of the string is a lowercase hex digit. -/
def isHexLower (s : String) : Bool := s.data.all fun c => (hexVal c).isSome

/-- The constant scheme-wide salt of the source
(`private salt = 'xnotes_salt'`). -/
def salt : String := "xnotes_salt"

/-- A derived symmetric key.  Modelled from the spec: the source calls
`crypto.scryptSync(password, salt, 32)`, external library code; the
spec requires the KDF to be deterministic in `password + salt`, and the
idealisation of a collision-free KDF is modelled by keeping the pair
`(salt, password)` itself as the key, which is injective in the
password. -/
abbrev Key := String × String

/-- Modelled from the spec: scrypt key derivation with the constant
scheme-wide salt, idealised as injective. -/
def deriveKey (password : String) : Key := (salt, password)

/-- A numeric mixing of a string, used by the modelled keystream. -/
def strMix (s : String) : Nat :=
  s.data.foldr (fun c a => c.toNat + 31 * a) 7

/-- A numeric mixing of a byte list, used by the modelled keystream and
tag. -/
def listMix (l : List Nat) : Nat :=
  l.foldr (fun b a => b + 33 * a) 11

/-- Modelled from the spec: the AES-256-GCM keystream byte at position
`i` under key `key` and nonce `iv` (external library code).  Any
executable function below 256 is a faithful model of the counter-mode
keystream for the properties in scope: ciphertext = plaintext XOR
keystream, same length as the plaintext. -/
def ks (key : Key) (iv : List Nat) (i : Nat) : Nat :=
  (strMix key.1 * 3 + strMix key.2 + listMix iv + 131 * i + 7) % 256

/-- XOR a byte list against the keystream starting at position `i`
(counter-mode encryption core; its own inverse). -/
def xorKs (key : Key) (iv : List Nat) : Nat → List Nat → List Nat
  | _, [] => []
  | i, b :: rest => (b ^^^ ks key iv i) :: xorKs key iv (i + 1) rest

/-- Modelled from the spec: the 16-byte AES-256-GCM authentication tag
over key, nonce and ciphertext (external library code; the spec fixes
the tag length at 16 bytes). -/
def tagBytes (key : Key) (iv ct : List Nat) : List Nat :=
  (List.range 16).map fun j =>
    (strMix key.2 + listMix iv * 5 + listMix ct * 7 + 37 * j + 3) % 256

/-- The single unified decryption failure of the source: every failure
inside `decrypt` is caught and rethrown as
`Error('Failed to decrypt. Invalid password or corrupted file.')`. -/
inductive DecryptError
  | decryptionError
deriving DecidableEq

deriving instance DecidableEq for Except

/-- The parsed JSON envelope object: field name to string value, in
serialization order. -/
abbrev JsonObj := List (String × String)

namespace EncryptionService

/-- Model of `EncryptionService.encrypt` (src/unnamed/part_000, lines 7-22):
derive the key from the password, encrypt the plaintext bytes under
the fresh 12-byte nonce `iv` (randomness is passed in as the `iv`
argument), and serialize `iv`, `content` and `tag` as lowercase hex in
that field order.  Plaintext is modelled as its UTF-8 byte sequence. -/
def encrypt (text : List Nat) (password : String) (iv : List Nat) : JsonObj :=
  let key := deriveKey password
  let encrypted := xorKs key iv 0 text
  [("iv", hexEncode iv),
   ("content", hexEncode encrypted),
   ("tag", hexEncode (tagBytes key iv encrypted))]

/-- Model of `EncryptionService.decrypt` (src/unnamed/part_000, lines 24-41):
look up the three fields of the parsed JSON object (unknown extra
fields are simply never consulted), hex-decode them, verify the
authentication tag, and decrypt.  Every failure (missing field, bad
hex, tag mismatch) is caught by the source's `try/catch` and unified
into the single decryption error. -/
def decrypt (data : JsonObj) (password : String) : Except DecryptError (List Nat) :=
  match data.lookup "iv", data.lookup "content", data.lookup "tag" with
  | some ivH, some ctH, some tagH =>
    match hexDecode ivH, hexDecode ctH, hexDecode tagH with
    | some iv, some ct, some tagB =>
      let key := deriveKey password
      if tagB = tagBytes key iv ct then .ok (xorKs key iv 0 ct)
      else .error .decryptionError
    | _, _, _ => .error .decryptionError
  | _, _, _ => .error .decryptionError

end EncryptionService

/-- Flip bit `b` (0-7) of the byte at position `j` of a byte list. -/
def flipBit (l : List Nat) (j b : Nat) : List Nat :=
  l.set j (l.getD j 0 ^^^ 2 ^ b)

namespace IdealGCM

/-- Modelled from the spec: the AES-256-GCM authentication tag as the
ideal-functionality reading of §4.1 ("fixed-length integrity tag bound
to `nonce + ciphertext + key`"; "any bit flip in any field must cause
decryption to fail, never to return wrong plaintext"; "wrong password
… fails").  The cipher is external library code absent from src/, so
its authenticity contract is modelled symbolically: the tag is the
triple it is bound to, and verification compares it exactly.  The
on-disk 16-byte footprint of the real tag is covered by the
serialization model (`tagBytes`). -/
structure AuthTag where
  key : Key
  iv : List Nat
  ct : List Nat
deriving DecidableEq

/-- An envelope with structured fields, the ideal-AEAD counterpart of
the serialized JSON record. -/
structure Envelope where
  iv : List Nat
  content : List Nat
  tag : AuthTag
deriving DecidableEq

/-- Modelled from the spec: `EncryptionService.encrypt` against the
ideal AEAD — same key derivation and ciphertext as the serialized
model, with the symbolic tag. -/
def encrypt (text : List Nat) (password : String) (iv : List Nat) : Envelope :=
  let key := deriveKey password
  let ct := xorKs key iv 0 text
  { iv := iv, content := ct, tag := { key := key, iv := iv, ct := ct } }

/-- Modelled from the spec: `EncryptionService.decrypt` against the
ideal AEAD — re-derive the key, verify the tag against
`key + nonce + ciphertext` before releasing any plaintext, fail with
the unified decryption error otherwise. -/
def decrypt (e : Envelope) (password : String) : Except DecryptError (List Nat) :=
  let key := deriveKey password
  if e.tag = ({ key := key, iv := e.iv, ct := e.content } : AuthTag) then
    .ok (xorKs key e.iv 0 e.content)
  else .error .decryptionError

end IdealGCM

/-- A value stored in the modelled filesystem: either plaintext bytes
(a staging copy) or a serialized envelope record (the persisted JSON
string, modelled as its parsed object). -/
inductive FsVal
  | text (bytes : List Nat)
  | record (fields : JsonObj)
deriving DecidableEq

/-- The filesystem: an association of paths to file contents. -/
abbrev FsMap := List (String × FsVal)

/-- Remove every binding of key `k` from an association list
(JS `Map.delete`, also the overwrite step of `Map.set`). -/
def eraseKey {α : Type} (l : List (String × α)) (k : String) : List (String × α) :=
  l.filter fun e => e.1 != k

/-- Read a file (`fs.readFile` / `fs.pathExists`). -/
def fsRead (fs : FsMap) (p : String) : Option FsVal := fs.lookup p

/-- Overwrite a file in place (`fs.writeFile`). -/
def fsWrite (fs : FsMap) (p : String) (v : FsVal) : FsMap := (p, v) :: eraseKey fs p

/-- Delete a file (`fs.remove`). -/
def fsRemove (fs : FsMap) (p : String) : FsMap := eraseKey fs p

/-- One filesystem operation performed by a staging-lifecycle
transition.  `rename` is the replace step a write-then-replace persist
would use; the source never performs it. -/
inductive FsOp
  | read (p : String)
  | write (p : String) (v : FsVal)
  | rename (src dst : String)
  | remove (p : String)
deriving DecidableEq

/-- Test that the operation is a rename/replace. -/
def FsOp.isRename : FsOp → Bool
  | .rename _ _ => true
  | _ => false

/-- Atomic rename of `src` onto `dst`. -/
def fsRename (fs : FsMap) (src dst : String) : FsMap :=
  match fsRead fs src with
  | some v => fsWrite (fsRemove fs src) dst v
  | none => fs

/-- The intermediate contents a concurrent reader can observe at a path
while a single direct (non-atomic) `fs.writeFile` of `v` is in
progress: any prefix of the new value. -/
def writeMid (v : FsVal) : List FsVal :=
  match v with
  | .text c => (List.range (c.length + 1)).map fun t => .text (c.take t)
  | .record r => (List.range (r.length + 1)).map fun t => .record (r.take t)

/-- All filesystem states observable by a concurrent reader during a
trace: a direct write exposes every intermediate prefix of the written
value, a rename only its before/after states. -/
def obsStates : List FsOp → FsMap → List FsMap
  | [], fs => [fs]
  | .read _ :: rest, fs => fs :: obsStates rest fs
  | .remove p :: rest, fs => fs :: obsStates rest (fsRemove fs p)
  | .rename s d :: rest, fs => fs :: obsStates rest (fsRename fs s d)
  | .write p v :: rest, fs =>
    (fs :: ((writeMid v).map fun w => fsWrite fs p w)) ++ obsStates rest (fsWrite fs p v)

/-- One live staging session, as stored in the `openFiles` map of
`NotesProvider`: the staging path and the watcher registrations
(`disposables`) tied to it. -/
structure Session where
  tempPath : String
  watchers : List Nat
deriving DecidableEq

/-- The mutable state of `NotesProvider` plus its environment: the
`openFiles` session map, the filesystem, and the set of live watcher
registrations. -/
structure SysState where
  openFiles : List (String × Session)
  fs : FsMap
  activeWatchers : List Nat
deriving DecidableEq

/-- Model of `NotesConfig` (src/src/configService.ts), the fields the staging
core consumes. -/
structure NotesConfig where
  notesDirectory : String
  encryptionPassword : String
deriving DecidableEq

/-- Model of `NoteItem` (src/src/notesProvider.ts, lines 8-26), the fields the
staging core consumes. -/
structure NoteItem where
  label : String
  filePath : String
  isDirectory : Bool
deriving DecidableEq

/-- Test that `suff` is a suffix of `s` (file-extension test). -/
def endsWithL (s suff : List Char) : Bool :=
  decide (suff.length ≤ s.length) && (s.drop (s.length - suff.length) == suff)

/-- String version of `endsWithL`. -/
def endsWithS (s suff : String) : Bool := endsWithL s.data suff.data

/-- Structural worker for decimal rendering: `fuel` bounds the number
of digits (any `fuel > log10 n` yields them all). -/
def natDigitsAux : Nat → Nat → List Char
  | 0, _ => []
  | fuel + 1, n =>
    if n < 10 then [hexDigitChar n]
    else natDigitsAux fuel (n / 10) ++ [hexDigitChar (n % 10)]

/-- Decimal digits of `n`, most significant first (the rendering of
`Date.now()` by string concatenation in JS). -/
def natDigits (n : Nat) : List Char := natDigitsAux (n + 1) n

/-- Decimal string of `n`. -/
def natStr (n : Nat) : String := String.mk (natDigits n)

/-- The part of a path after the last `'/'` (`path.basename`). -/
def afterLastSlash (p : String) : String :=
  String.mk ((p.data.reverse.takeWhile fun c => c != '/').reverse)

/-- Model of `path.basename(p, '.enc')`: strip the directory part and one
trailing `.enc`. -/
def baseNameNoEnc (p : String) : String :=
  let b := afterLastSlash p
  if endsWithS b ".enc" then String.mk (b.data.take (b.data.length - 4)) else b

/-- Model of `path.join(this.context.globalStorageUri.fsPath, 'temp')`
(line 242), a fixed directory outside the notes tree. -/
def tempDirPath : String := "/globalStorage/temp"

/-- The staging path chosen by `openNote` (lines 245-246):
`basename(filePath, '.enc') + '.md'` joined to the temp directory with
the `'_' + Date.now()` uniquifier appended. -/
def stagingPath (item : NoteItem) (now : Nat) : String :=
  tempDirPath ++ "/" ++ baseNameNoEnc item.filePath ++ ".md" ++ "_" ++ natStr now

/-- Reading and decrypting a stored file: a file whose content is not a
well-formed JSON record fails `JSON.parse`, which the source's
`try/catch` unifies into the same decryption error. -/
def decryptVal (v : FsVal) (password : String) : Except DecryptError (List Nat) :=
  match v with
  | .text _ => .error .decryptionError
  | .record r => EncryptionService.decrypt r password

/-- Model of `NotesProvider.getChildren` (lines 84-87): a file becomes a note
item only if its name ends in `.enc`; the display label swaps that
extension for `.md`. -/
def noteItemOfFile (dir fname : String) : Option NoteItem :=
  if endsWithS fname ".enc" then
    some { label := String.mk (fname.data.take (fname.data.length - 4)) ++ ".md",
           filePath := dir ++ "/" ++ fname,
           isDirectory := false }
  else none

namespace NotesProvider

/-- The caller-visible outcome of `openNote`. -/
inductive OpenResult
  | noop
  | shownExisting (tempPath : String)
  | notFound
  | opened (tempPath : String)
  | errorShown
deriving DecidableEq

/-- Model of `NotesProvider.openNote` (lines 219-302).  Environment inputs are
parameters: the configuration (`none` models `getConfig()` returning
null), `now` is `Date.now()`, and `w1`, `w2` are the two watcher
registrations (`onDidSaveTextDocument`, `onDidCloseTextDocument`).
Returns the user-visible result, the new state and the ordered fs
trace.  The trailing `catch` of the source surfaces decryption
failures as an error message with no state change. -/
def openNote (st : SysState) (config? : Option NotesConfig) (item : NoteItem)
    (now w1 w2 : Nat) : OpenResult × SysState × List FsOp :=
  match config? with
  | none => (.noop, st, [])
  | some config =>
    if item.isDirectory then (.noop, st, [])
    else
      match st.openFiles.lookup item.filePath with
      | some s => (.shownExisting s.tempPath, st, [])
      | none =>
        match fsRead st.fs item.filePath with
        | none => (.notFound, st, [.read item.filePath])
        | some v =>
          match decryptVal v config.encryptionPassword with
          | .error _ => (.errorShown, st, [.read item.filePath])
          | .ok pt =>
            let tempFilePath := stagingPath item now
            (.opened tempFilePath,
             { openFiles :=
                 (item.filePath, { tempPath := tempFilePath, watchers := [w1, w2] })
                   :: eraseKey st.openFiles item.filePath,
               fs := fsWrite st.fs tempFilePath (.text pt),
               activeWatchers := w1 :: w2 :: st.activeWatchers },
             [.read item.filePath, .write tempFilePath (.text pt)])

/-- The `onDidCloseTextDocument` handler registered by `openNote`
(lines 266-291): a final save (read the staging copy, re-encrypt with
the fresh nonce `iv`, write the persistent envelope; failures caught
and logged), then removal of the staging file (failures caught and
logged; `removeFails` injects such a failure), then session removal
and watcher disposal — unconditionally.  `persistentPath`,
`tempFilePath`, `pw` and the watcher ids `ws` are the values captured
by the handler's closure. -/
def closeNote (st : SysState) (persistentPath tempFilePath pw : String)
    (iv : List Nat) (ws : List Nat) (removeFails : Bool) : SysState × List FsOp :=
  let saved :=
    match fsRead st.fs tempFilePath with
    | some (.text c) =>
      let env := FsVal.record (EncryptionService.encrypt c pw iv)
      (fsWrite st.fs persistentPath env,
       [FsOp.read tempFilePath, FsOp.write persistentPath env])
    | _ => (st.fs, [FsOp.read tempFilePath])
  let cleaned :=
    if removeFails then saved
    else (fsRemove saved.1 tempFilePath, saved.2 ++ [FsOp.remove tempFilePath])
  ({ openFiles := eraseKey st.openFiles persistentPath,
     fs := cleaned.1,
     activeWatchers := st.activeWatchers.filter fun w => !(ws.contains w) },
   cleaned.2)

/-- Model of `NotesProvider.saveEncryptedNote` (lines 304-309): read the staging
copy, re-encrypt, and overwrite the persistent path with one direct
`fs.writeFile` — no temporary file, no rename.  The commit-message
prompt and git call that follow are caller-side policy outside the
core. -/
def saveEncryptedNote (st : SysState) (tempPath encryptedPath pw : String)
    (iv : List Nat) : SysState × List FsOp :=
  match fsRead st.fs tempPath with
  | some (.text c) =>
    let env := FsVal.record (EncryptionService.encrypt c pw iv)
    ({ st with fs := fsWrite st.fs encryptedPath env },
     [FsOp.read tempPath, FsOp.write encryptedPath env])
  | _ => (st, [FsOp.read tempPath])

end NotesProvider

/-- Concrete 12-byte nonce used by witnesses and counterexamples. -/
def iv12 : List Nat := [0, 1, 2, 3, 4, 5, 6, 7, 8, 9, 10, 11]

/-- Concrete configuration used by witnesses and counterexamples. -/
def cfgA : NotesConfig := { notesDirectory := "d", encryptionPassword := "pw" }

/-- Concrete note item used by witnesses and counterexamples. -/
def itemA : NoteItem := { label := "n.md", filePath := "d/n.enc", isDirectory := false }

/-- Concrete empty state, used by witnesses. -/
def stEmpty : SysState := { openFiles := [], fs := [], activeWatchers := [] }

/-- A concrete live session, used by witnesses. -/
def sessA : Session := { tempPath := "/globalStorage/temp/n.md_0", watchers := [1, 2] }

/-- A concrete state with one live session for `itemA`, used by
witnesses. -/
def stWithSession : SysState :=
  { openFiles := [("d/n.enc", sessA)], fs := [], activeWatchers := [1, 2] }

/-- A concrete state for exercising the close transition: one live
session whose staging copy holds one byte. -/
def stC3 : SysState :=
  { openFiles := [("d/n.enc", { tempPath := "tmp1", watchers := [1, 2] })],
    fs := [("tmp1", .text [104])],
    activeWatchers := [1, 2] }

/-- A concrete state whose envelope is malformed (missing fields), so
opening it fails decryption. -/
def stC5 : SysState :=
  { openFiles := [], fs := [("d/n.enc", .record [("iv", "00")])], activeWatchers := [] }

/-- The staged plaintext of the persist counterexample. -/
def c7Staged : FsVal := .text [104, 105]

/-- A well-formed old envelope sitting at the persistent path before
the persist counterexample runs. -/
def c7OldEnv : FsVal := .record (EncryptionService.encrypt [1] "pw" iv12)

/-- The fresh envelope the persist counterexample writes. -/
def c7NewEnv : FsVal := .record (EncryptionService.encrypt [104, 105] "pw" iv12)

/-- Initial state of the persist counterexample. -/
def c7St : SysState :=
  { openFiles := [], fs := [("t", c7Staged), ("d/n.enc", c7OldEnv)], activeWatchers := [] }

/-- The fs trace of the persist counterexample's save. -/
def c7Trace : List FsOp := (NotesProvider.saveEncryptedNote c7St "t" "d/n.enc" "pw" iv12).2

/-- Initial state of the staging-extension counterexample: one
well-formed envelope at `d/n.enc`. -/
def c9St : SysState :=
  { openFiles := [],
    fs := [("d/n.enc", .record (EncryptionService.encrypt [104] "pw" iv12))],
    activeWatchers := [] }

theorem hexVal_hexDigitChar {d : Nat} (h : d < 16) : hexVal (hexDigitChar d) = some d := by
  revert d
  decide

theorem hexDecodeL_hexEncodeL :
    ∀ bs : List Nat, (∀ b ∈ bs, b < 256) → hexDecodeL (hexEncodeL bs) = some bs := by
  intro bs
  induction bs with
  | nil => intro _; rfl
  | cons b rest ih =>
    intro h
    have hb : b < 256 := h b (List.mem_cons_self _ _)
    have h1 : b / 16 < 16 := by omega
    have h2 : b % 16 < 16 := by omega
    have hrest := ih fun x hx => h x (List.mem_cons_of_mem _ hx)
    simp only [hexEncodeL, hexDecodeL, hexVal_hexDigitChar h1, hexVal_hexDigitChar h2, hrest]
    have hdm : 16 * (b / 16) + b % 16 = b := Nat.div_add_mod b 16
    simp [hdm]

theorem hexDecode_hexEncode (bs : List Nat) (h : ∀ b ∈ bs, b < 256) :
    hexDecode (hexEncode bs) = some bs :=
  hexDecodeL_hexEncodeL bs h

theorem length_hexEncodeL (bs : List Nat) : (hexEncodeL bs).length = 2 * bs.length := by
  induction bs with
  | nil => rfl
  | cons b rest ih => simp [hexEncodeL, ih]; omega

theorem length_hexEncode (bs : List Nat) : (hexEncode bs).length = 2 * bs.length :=
  length_hexEncodeL bs

theorem hexVal_isSome_hexDigitChar (d : Nat) : (hexVal (hexDigitChar d)).isSome = true := by
  by_cases h : d < 16
  · simp [hexVal_hexDigitChar h]
  · have h0 : hexDigitChar d = '0' := by
      rw [hexDigitChar, if_neg (by omega), if_neg (by omega)]
    rw [h0]
    decide

theorem isHexLower_hexEncode (bs : List Nat) : isHexLower (hexEncode bs) = true := by
  show (hexEncodeL bs).all _ = true
  induction bs with
  | nil => rfl
  | cons b rest ih =>
    simp only [hexEncodeL, List.all_cons, ih, Bool.and_true]
    simp [hexVal_isSome_hexDigitChar]

theorem xorKs_xorKs (key : Key) (iv : List Nat) (i : Nat) (bs : List Nat) :
    xorKs key iv i (xorKs key iv i bs) = bs := by
  induction bs generalizing i with
  | nil => rfl
  | cons b rest ih =>
    simp only [xorKs, ih]
    congr 1
    rw [Nat.xor_assoc, Nat.xor_self, Nat.xor_zero]

theorem length_xorKs (key : Key) (iv : List Nat) (i : Nat) (bs : List Nat) :
    (xorKs key iv i bs).length = bs.length := by
  induction bs generalizing i with
  | nil => rfl
  | cons b rest ih => simp [xorKs, ih]

theorem length_tagBytes (key : Key) (iv ct : List Nat) : (tagBytes key iv ct).length = 16 := by
  simp [tagBytes]

theorem xor_lt_256 {a b : Nat} (ha : a < 256) (hb : b < 256) : a ^^^ b < 256 := by
  have h : Nat.bitwise bne a b < 2 ^ 8 := Nat.bitwise_lt ha hb
  simpa [HXor.hXor, Xor.xor, Nat.xor] using h

theorem ks_lt (key : Key) (iv : List Nat) (i : Nat) : ks key iv i < 256 :=
  Nat.mod_lt _ (by omega)

theorem mem_xorKs_lt (key : Key) (iv : List Nat) :
    ∀ (i : Nat) (q : List Nat), (∀ b ∈ q, b < 256) → ∀ b ∈ xorKs key iv i q, b < 256 := by
  intro i q
  induction q generalizing i with
  | nil => intro _ b hb; simp [xorKs] at hb
  | cons x rest ih =>
    intro hq b hb
    simp only [xorKs, List.mem_cons] at hb
    rcases hb with rfl | hb
    · exact xor_lt_256 (hq x (List.mem_cons_self _ _)) (ks_lt _ _ _)
    · exact ih (i + 1) (fun y hy => hq y (List.mem_cons_of_mem _ hy)) b hb

theorem mem_tagBytes_lt (key : Key) (iv ct : List Nat) :
    ∀ b ∈ tagBytes key iv ct, b < 256 := by
  intro b hb
  simp only [tagBytes, List.mem_map] at hb
  obtain ⟨j, _, rfl⟩ := hb
  exact Nat.mod_lt _ (by omega)

/-- Core round-trip fact, stated with arbitrary extra fields appended
after the three the source writes (the source's `decrypt` only ever
looks up `iv`, `content` and `tag`, so trailing unknown fields cannot
change the outcome). -/
theorem decrypt_encrypt_append (p : List Nat) (k : String) (iv : List Nat) (extra : JsonObj)
    (hp : ∀ b ∈ p, b < 256) (hiv : ∀ b ∈ iv, b < 256) :
    EncryptionService.decrypt (EncryptionService.encrypt p k iv ++ extra) k = .ok p := by
  have hct := mem_xorKs_lt (deriveKey k) iv 0 p hp
  show EncryptionService.decrypt
      ([("iv", hexEncode iv),
        ("content", hexEncode (xorKs (deriveKey k) iv 0 p)),
        ("tag", hexEncode (tagBytes (deriveKey k) iv (xorKs (deriveKey k) iv 0 p)))] ++ extra) k
      = .ok p
  unfold EncryptionService.decrypt
  rw [show List.lookup "iv"
        ([("iv", hexEncode iv),
          ("content", hexEncode (xorKs (deriveKey k) iv 0 p)),
          ("tag", hexEncode (tagBytes (deriveKey k) iv (xorKs (deriveKey k) iv 0 p)))] ++ extra)
      = some (hexEncode iv) from rfl,
     show List.lookup "content"
        ([("iv", hexEncode iv),
          ("content", hexEncode (xorKs (deriveKey k) iv 0 p)),
          ("tag", hexEncode (tagBytes (deriveKey k) iv (xorKs (deriveKey k) iv 0 p)))] ++ extra)
      = some (hexEncode (xorKs (deriveKey k) iv 0 p)) from rfl,
     show List.lookup "tag"
        ([("iv", hexEncode iv),
          ("content", hexEncode (xorKs (deriveKey k) iv 0 p)),
          ("tag", hexEncode (tagBytes (deriveKey k) iv (xorKs (deriveKey k) iv 0 p)))] ++ extra)
      = some (hexEncode (tagBytes (deriveKey k) iv (xorKs (deriveKey k) iv 0 p))) from rfl]
  simp only [hexDecode_hexEncode iv hiv, hexDecode_hexEncode _ hct,
      hexDecode_hexEncode _ (mem_tagBytes_lt (deriveKey k) iv _)]
  simp [xorKs_xorKs]

/-- C1 — Round-trip: for every plaintext byte sequence `p`,
password `k` and nonce `iv`, decrypting the envelope produced by
`encrypt(p, k)` with the same password `k` returns exactly `p`.
(Plaintext strings are modelled by their UTF-8 byte sequences, as the
source's `cipher.update(text, 'utf8')` converts them.) -/
theorem C1_roundtrip (p : List Nat) (k : String) (iv : List Nat)
    (hp : ∀ b ∈ p, b < 256) (hiv : ∀ b ∈ iv, b < 256) :
    EncryptionService.decrypt (EncryptionService.encrypt p k iv) k = .ok p := by
  have h := decrypt_encrypt_append p k iv [] hp hiv
  simpa using h

/-- Witness for C1 at a concrete input. -/
theorem C1_roundtrip_witness :
    EncryptionService.decrypt
      (EncryptionService.encrypt [104, 105] "pw" [0, 1, 2, 3, 4, 5, 6, 7, 8, 9, 10, 11])
      "pw" = .ok [104, 105] :=
  C1_roundtrip [104, 105] "pw" [0, 1, 2, 3, 4, 5, 6, 7, 8, 9, 10, 11]
    (by decide) (by decide)

theorem xor_two_pow_ne (a b : Nat) : a ^^^ 2 ^ b ≠ a := by
  intro h
  have h2 : a ^^^ (a ^^^ 2 ^ b) = a ^^^ a := congrArg (a ^^^ ·) h
  rw [← Nat.xor_assoc, Nat.xor_self, Nat.zero_xor] at h2
  have hpos : 0 < 2 ^ b := Nat.pos_pow_of_pos b (by omega)
  omega

theorem getD_set_self (l : List Nat) (j v : Nat) (hj : j < l.length) :
    (l.set j v).getD j 0 = v := by
  induction l generalizing j with
  | nil => simp at hj
  | cons x rest ih =>
    cases j with
    | zero => rfl
    | succ n =>
      simp only [List.set, List.getD_cons_succ]
      exact ih n (by simpa using hj)

theorem flipBit_ne (l : List Nat) (j b : Nat) (hj : j < l.length) : flipBit l j b ≠ l := by
  intro h
  have hv : (flipBit l j b).getD j 0 = l.getD j 0 := by rw [h]
  rw [flipBit, getD_set_self l _ _ hj] at hv
  exact xor_two_pow_ne (l.getD j 0) b hv

/-- C4 — Authentication failure is always a clean error, never
wrong plaintext: decrypting an envelope produced under password `k`
with any other password fails; flipping any single bit of any byte of
the `content` or `iv` field, or altering the `authTag` in any way (in
particular flipping any bit of it), makes decryption with the correct
password fail — always with the unified `DecryptionError` and no
plaintext output. -/
theorem C4_tamper_detection (p : List Nat) (k : String) (iv : List Nat) :
    (∀ k2, k2 ≠ k →
      IdealGCM.decrypt (IdealGCM.encrypt p k iv) k2 = .error .decryptionError)
    ∧ (∀ j b, j < (IdealGCM.encrypt p k iv).content.length → b < 8 →
      IdealGCM.decrypt
        { IdealGCM.encrypt p k iv with
          content := flipBit (IdealGCM.encrypt p k iv).content j b } k
        = .error .decryptionError)
    ∧ (∀ j b, j < iv.length → b < 8 →
      IdealGCM.decrypt { IdealGCM.encrypt p k iv with iv := flipBit iv j b } k
        = .error .decryptionError)
    ∧ (∀ t, t ≠ (IdealGCM.encrypt p k iv).tag →
      IdealGCM.decrypt { IdealGCM.encrypt p k iv with tag := t } k
        = .error .decryptionError) := by
  refine ⟨?_, ?_, ?_, ?_⟩
  · intro k2 hk2
    simp only [IdealGCM.encrypt, IdealGCM.decrypt]
    rw [if_neg]
    intro hEq
    have : deriveKey k = deriveKey k2 := by
      have := congrArg IdealGCM.AuthTag.key hEq
      simpa using this
    exact hk2 (by simpa [deriveKey, salt] using this.symm)
  · intro j b hj hb
    simp only [IdealGCM.encrypt, IdealGCM.decrypt] at *
    rw [if_neg]
    intro hEq
    have := congrArg IdealGCM.AuthTag.ct hEq
    simp only at this
    exact flipBit_ne _ j b hj this.symm
  · intro j b hj hb
    simp only [IdealGCM.encrypt, IdealGCM.decrypt] at *
    rw [if_neg]
    intro hEq
    have := congrArg IdealGCM.AuthTag.iv hEq
    simp only at this
    exact flipBit_ne _ j b hj this.symm
  · intro t ht
    simp only [IdealGCM.encrypt, IdealGCM.decrypt] at *
    exact if_neg ht

/-- Witness for C4 at concrete inputs. -/
theorem C4_tamper_detection_witness :
    IdealGCM.decrypt (IdealGCM.encrypt [5] "pw" iv12) "wrong" = .error .decryptionError
    ∧ IdealGCM.decrypt
        { IdealGCM.encrypt [5] "pw" iv12 with
          content := flipBit (IdealGCM.encrypt [5] "pw" iv12).content 0 0 } "pw"
        = .error .decryptionError
    ∧ IdealGCM.decrypt { IdealGCM.encrypt [5] "pw" iv12 with iv := flipBit iv12 3 7 } "pw"
        = .error .decryptionError :=
  ⟨(C4_tamper_detection [5] "pw" iv12).1 "wrong" (by decide),
   (C4_tamper_detection [5] "pw" iv12).2.1 0 0 (by decide) (by decide),
   (C4_tamper_detection [5] "pw" iv12).2.2.1 3 7 (by decide) (by decide)⟩

/-- C6 — Serialized envelope shape: `encrypt(p, k)` is a flat
record with exactly the three fields `iv`, `content`, `tag` in that
order, each value lowercase hex; `iv` is 24 hex chars decoding to the
12 nonce bytes, `tag` is 32 hex chars decoding to the 16 tag bytes,
and `content` has exactly `2 × |p|` hex chars. -/
theorem C6_envelope_format (p : List Nat) (k : String) (iv : List Nat)
    (hiv : ∀ b ∈ iv, b < 256) (hlen : iv.length = 12) :
    (EncryptionService.encrypt p k iv).map Prod.fst = ["iv", "content", "tag"]
    ∧ (∀ f ∈ EncryptionService.encrypt p k iv, isHexLower f.2 = true)
    ∧ (∃ s l, (EncryptionService.encrypt p k iv).lookup "iv" = some s
        ∧ s.length = 24 ∧ hexDecode s = some l ∧ l.length = 12)
    ∧ (∃ s l, (EncryptionService.encrypt p k iv).lookup "tag" = some s
        ∧ s.length = 32 ∧ hexDecode s = some l ∧ l.length = 16)
    ∧ (∃ s, (EncryptionService.encrypt p k iv).lookup "content" = some s
        ∧ s.length = 2 * p.length) := by
  refine ⟨rfl, ?_, ?_, ?_, ?_⟩
  · intro f hf
    simp only [EncryptionService.encrypt, List.mem_cons, List.not_mem_nil, or_false] at hf
    rcases hf with rfl | rfl | rfl <;> exact isHexLower_hexEncode _
  · refine ⟨hexEncode iv, iv, rfl, ?_, hexDecode_hexEncode iv hiv, hlen⟩
    rw [length_hexEncode, hlen]
  · refine ⟨hexEncode (tagBytes (deriveKey k) iv (xorKs (deriveKey k) iv 0 p)),
      tagBytes (deriveKey k) iv (xorKs (deriveKey k) iv 0 p), rfl, ?_,
      hexDecode_hexEncode _ (mem_tagBytes_lt _ _ _), length_tagBytes _ _ _⟩
    rw [length_hexEncode, length_tagBytes]
  · refine ⟨hexEncode (xorKs (deriveKey k) iv 0 p), rfl, ?_⟩
    rw [length_hexEncode, length_xorKs]

/-- Witness for C6 at a concrete input. -/
theorem C6_envelope_format_witness :
    (EncryptionService.encrypt [104] "pw" iv12).map Prod.fst = ["iv", "content", "tag"]
    ∧ (∃ s, (EncryptionService.encrypt [104] "pw" iv12).lookup "content" = some s
        ∧ s.length = 2 * [104].length) :=
  ⟨(C6_envelope_format [104] "pw" iv12 (by decide) (by decide)).1,
   (C6_envelope_format [104] "pw" iv12 (by decide) (by decide)).2.2.2.2⟩

/-- C8 counterexample — a record carrying the three valid fields
plus an unknown field `foo` decrypts successfully: unknown fields are
ignored by the source (`JSON.parse` accepts them and `decrypt` never
consults them), so they are NOT a parse failure reported as
`DecryptionError`, contrary to the claim. -/
theorem C8_counterexample :
    EncryptionService.decrypt
      (EncryptionService.encrypt [104] "pw" iv12 ++ [("foo", "00")]) "pw" = .ok [104]
    ∧ EncryptionService.decrypt
        (EncryptionService.encrypt [104] "pw" iv12 ++ [("foo", "00")]) "pw"
      ≠ .error .decryptionError := by
  constructor
  · decide
  · decide

/-- C8 amended — a record missing any of the three expected fields
is a parse failure reported as the unified `DecryptionError` (never a
crash or any other error); unknown extra fields are ignored and
decryption proceeds normally. -/
theorem C8_amended :
    (∀ (data : JsonObj) (pw : String),
      data.lookup "iv" = none ∨ data.lookup "content" = none ∨ data.lookup "tag" = none →
      EncryptionService.decrypt data pw = .error .decryptionError)
    ∧ (∀ (p : List Nat) (pw : String) (iv : List Nat) (extra : JsonObj),
      (∀ b ∈ p, b < 256) → (∀ b ∈ iv, b < 256) →
      EncryptionService.decrypt (EncryptionService.encrypt p pw iv ++ extra) pw = .ok p) := by
  constructor
  · intro data pw h
    unfold EncryptionService.decrypt
    rcases h1 : data.lookup "iv" with _ | s1
    · rfl
    · rcases h2 : data.lookup "content" with _ | s2
      · rfl
      · rcases h3 : data.lookup "tag" with _ | s3
        · rfl
        · exfalso
          rcases h with h | h | h <;> simp_all
  · intro p pw iv extra hp hiv
    exact decrypt_encrypt_append p pw iv extra hp hiv

/-- Witness for the amended C8 at concrete inputs. -/
theorem C8_amended_witness :
    EncryptionService.decrypt [("content", "ff"), ("tag", "00")] "pw"
      = .error .decryptionError
    ∧ EncryptionService.decrypt
        (EncryptionService.encrypt [104] "pw" iv12 ++ [("extra", "zz")]) "pw" = .ok [104] :=
  ⟨C8_amended.1 [("content", "ff"), ("tag", "00")] "pw" (Or.inl (by decide)),
   C8_amended.2 [104] "pw" iv12 [("extra", "zz")] (by decide) (by decide)⟩

theorem lookup_eraseKey_self {α : Type} (l : List (String × α)) (k : String) :
    (eraseKey l k).lookup k = none := by
  induction l with
  | nil => rfl
  | cons e rest ih =>
    obtain ⟨ek, ev⟩ := e
    by_cases h : ek = k
    · simpa [eraseKey, List.filter_cons, h] using ih
    · have hk : (k == ek) = false := beq_false_of_ne (Ne.symm h)
      simpa [eraseKey, List.filter_cons, h, List.lookup_cons, hk] using ih

theorem lookup_eraseKey_ne {α : Type} (l : List (String × α)) {k q : String} (h : q ≠ k) :
    (eraseKey l k).lookup q = l.lookup q := by
  induction l with
  | nil => rfl
  | cons e rest ih =>
    obtain ⟨ek, ev⟩ := e
    by_cases he : ek = k
    · have hq : (q == ek) = false := beq_false_of_ne (by rw [he]; exact h)
      have hq2 : (q == k) = false := beq_false_of_ne h
      simpa [eraseKey, List.filter_cons, he, List.lookup_cons, hq, hq2] using ih
    · have hb : (ek != k) = true := by simp [he]
      simp only [eraseKey, List.filter_cons, hb, if_true, List.lookup_cons]
      cases hq : (q == ek) with
      | true => rfl
      | false => simpa [eraseKey] using ih

theorem fsRead_fsWrite_self (fs : FsMap) (p : String) (v : FsVal) :
    fsRead (fsWrite fs p v) p = some v := by
  simp [fsRead, fsWrite]

theorem fsRead_fsWrite_ne (fs : FsMap) {p q : String} (v : FsVal) (h : q ≠ p) :
    fsRead (fsWrite fs p v) q = fsRead fs q := by
  have hq : (q == p) = false := beq_false_of_ne h
  simp only [fsRead, fsWrite, List.lookup_cons, hq]
  exact lookup_eraseKey_ne fs h

theorem fsRead_fsRemove_self (fs : FsMap) (p : String) :
    fsRead (fsRemove fs p) p = none :=
  lookup_eraseKey_self fs p

theorem fsRead_fsRemove_ne (fs : FsMap) {p q : String} (h : q ≠ p) :
    fsRead (fsRemove fs p) q = fsRead fs q :=
  lookup_eraseKey_ne fs h

theorem nodup_map_fst_eraseKey {α : Type} (l : List (String × α)) (k : String)
    (h : (l.map Prod.fst).Nodup) : ((eraseKey l k).map Prod.fst).Nodup :=
  h.sublist ((List.filter_sublist l).map Prod.fst)

theorem not_mem_map_fst_eraseKey {α : Type} (l : List (String × α)) (k : String) :
    k ∉ (eraseKey l k).map Prod.fst := by
  intro hk
  rcases List.mem_map.mp hk with ⟨e, he, hfst⟩
  have hpred := List.of_mem_filter he
  rw [hfst] at hpred
  simp at hpred

/-- C2 — Session uniqueness: if a session already exists for a
persistent path, a second `openNote` call performs no state change at
all (no new session, no fs operation, hence no second staging file)
and directs the caller to the existing session's staging location; and
`openNote` preserves the at-most-one-session-per-path invariant
(distinctness of the `openFiles` keys). -/
theorem C2_session_uniqueness :
    (∀ (st : SysState) (cfg : NotesConfig) (item : NoteItem) (now w1 w2 : Nat) (s : Session),
      st.openFiles.lookup item.filePath = some s → item.isDirectory = false →
      NotesProvider.openNote st (some cfg) item now w1 w2
        = (.shownExisting s.tempPath, st, []))
    ∧ (∀ (st : SysState) (config? : Option NotesConfig) (item : NoteItem) (now w1 w2 : Nat),
      (st.openFiles.map Prod.fst).Nodup →
      (((NotesProvider.openNote st config? item now w1 w2).2.1).openFiles.map
        Prod.fst).Nodup) := by
  constructor
  · intro st cfg item now w1 w2 s hs hdir
    simp [NotesProvider.openNote, hdir, hs]
  · intro st config? item now w1 w2 hnd
    cases config? with
    | none => exact hnd
    | some cfg =>
      by_cases hdir : item.isDirectory
      · simpa [NotesProvider.openNote, hdir] using hnd
      · simp only [Bool.not_eq_true] at hdir
        cases hs : st.openFiles.lookup item.filePath with
        | some s => simpa [NotesProvider.openNote, hdir, hs] using hnd
        | none =>
          cases hv : fsRead st.fs item.filePath with
          | none => simpa [NotesProvider.openNote, hdir, hs, hv] using hnd
          | some v =>
            cases hd : decryptVal v cfg.encryptionPassword with
            | error e =>
              simpa [NotesProvider.openNote, hdir, hs, hv, hd] using hnd
            | ok pt =>
              have hof : (NotesProvider.openNote st (some cfg) item now w1 w2).2.1.openFiles
                  = (item.filePath,
                      { tempPath := stagingPath item now, watchers := [w1, w2] })
                    :: eraseKey st.openFiles item.filePath := by
                simp [NotesProvider.openNote, hdir, hs, hv, hd]
              rw [hof]
              simp only [List.map_cons]
              exact List.nodup_cons.mpr
                ⟨not_mem_map_fst_eraseKey _ _, nodup_map_fst_eraseKey _ _ hnd⟩

/-- Witness for C2 at concrete inputs. -/
theorem C2_session_uniqueness_witness :
    NotesProvider.openNote stWithSession (some cfgA) itemA 9 3 4
      = (.shownExisting "/globalStorage/temp/n.md_0", stWithSession, [])
    ∧ ((NotesProvider.openNote stWithSession (some cfgA) itemA 9 3 4).2.1.openFiles.map
        Prod.fst).Nodup :=
  ⟨C2_session_uniqueness.1 stWithSession cfgA itemA 9 3 4 sessA rfl rfl,
   C2_session_uniqueness.2 stWithSession (some cfgA) itemA 9 3 4 (by decide)⟩

/-- C5 — Decryption failure on open leaves the state unchanged: a
path in the Sealed state (no session) whose stored value fails to
decrypt makes `openNote` surface the error with no staging file
written, no session record created and no watcher registered — the
resulting state is exactly the starting state, and the fs trace shows
only the read. -/
theorem C5_decrypt_failure_no_effect (st : SysState) (cfg : NotesConfig) (item : NoteItem)
    (now w1 w2 : Nat) (v : FsVal)
    (hdir : item.isDirectory = false)
    (hsession : st.openFiles.lookup item.filePath = none)
    (hv : fsRead st.fs item.filePath = some v)
    (hfail : decryptVal v cfg.encryptionPassword = .error .decryptionError) :
    NotesProvider.openNote st (some cfg) item now w1 w2
      = (.errorShown, st, [.read item.filePath]) := by
  simp [NotesProvider.openNote, hdir, hsession, hv, hfail]

/-- Witness for C5 at a concrete input. -/
theorem C5_decrypt_failure_no_effect_witness :
    NotesProvider.openNote stC5 (some cfgA) itemA 0 1 2
      = (.errorShown, stC5, [.read "d/n.enc"]) :=
  C5_decrypt_failure_no_effect stC5 cfgA itemA 0 1 2 (.record [("iv", "00")])
    rfl rfl rfl (by decide)

/-- C10 — Calling `openNote` on a directory item, or with no
configuration available, returns immediately with no effect: the state
is unchanged, the fs trace is empty (nothing read or written), and the
result is the silent no-op (no error). -/
theorem C10_noop (st : SysState) (config? : Option NotesConfig) (item : NoteItem)
    (now w1 w2 : Nat) (h : config? = none ∨ item.isDirectory = true) :
    NotesProvider.openNote st config? item now w1 w2 = (.noop, st, []) := by
  rcases h with rfl | hdir
  · rfl
  · cases config? with
    | none => rfl
    | some cfg => simp [NotesProvider.openNote, hdir]

/-- Witness for C10 at a concrete input. -/
theorem C10_noop_witness :
    NotesProvider.openNote stEmpty none itemA 0 1 2 = (.noop, stEmpty, []) :=
  C10_noop stEmpty none itemA 0 1 2 (Or.inl rfl)

/-- C3 — Close durability and teardown: for a staged session
(session record present, staging copy on disk), the close handler
first re-encrypts the current staging-copy content into the persistent
envelope — so the envelope decrypts to the latest staged content even
without an explicit save — then deletes the plaintext staging file,
disposes all watch handles and removes the session record; and even if
deletion of the staging file fails, the session record is still
removed.  The trace conclusion shows the save-then-delete order. -/
theorem C3_close_durability (st : SysState) (p tp pw : String) (iv : List Nat)
    (ws : List Nat) (rf : Bool) (c : List Nat) (s : Session)
    (_hs : st.openFiles.lookup p = some s)
    (_hstp : s.tempPath = tp) (_hsws : s.watchers = ws)
    (htp : fsRead st.fs tp = some (.text c))
    (hc : ∀ b ∈ c, b < 256) (hiv : ∀ b ∈ iv, b < 256)
    (hne : tp ≠ p) :
    (∃ env, fsRead (NotesProvider.closeNote st p tp pw iv ws rf).1.fs p
        = some (.record env) ∧ EncryptionService.decrypt env pw = .ok c)
    ∧ (rf = false → fsRead (NotesProvider.closeNote st p tp pw iv ws rf).1.fs tp = none)
    ∧ (NotesProvider.closeNote st p tp pw iv ws rf).1.openFiles.lookup p = none
    ∧ (∀ w ∈ ws, w ∉ (NotesProvider.closeNote st p tp pw iv ws rf).1.activeWatchers)
    ∧ (rf = false → (NotesProvider.closeNote st p tp pw iv ws rf).2
        = [.read tp, .write p (.record (EncryptionService.encrypt c pw iv)),
           .remove tp]) := by
  have hdec : EncryptionService.decrypt (EncryptionService.encrypt c pw iv) pw = .ok c := by
    have h := decrypt_encrypt_append c pw iv [] hc hiv
    simpa using h
  have hclose : NotesProvider.closeNote st p tp pw iv ws rf
      = ({ openFiles := eraseKey st.openFiles p,
           fs := if rf then fsWrite st.fs p (.record (EncryptionService.encrypt c pw iv))
                 else fsRemove
                   (fsWrite st.fs p (.record (EncryptionService.encrypt c pw iv))) tp,
           activeWatchers := st.activeWatchers.filter fun w => !(ws.contains w) },
         if rf then [FsOp.read tp, FsOp.write p (.record (EncryptionService.encrypt c pw iv))]
         else [FsOp.read tp, FsOp.write p (.record (EncryptionService.encrypt c pw iv)),
               FsOp.remove tp]) := by
    cases rf <;> simp [NotesProvider.closeNote, htp]
  refine ⟨?_, ?_, ?_, ?_, ?_⟩
  · refine ⟨EncryptionService.encrypt c pw iv, ?_, hdec⟩
    rw [hclose]
    cases rf with
    | true => exact fsRead_fsWrite_self st.fs p _
    | false =>
      simp only [if_neg (by simp : ¬(false = true))]
      rw [fsRead_fsRemove_ne _ (Ne.symm hne)]
      exact fsRead_fsWrite_self st.fs p _
  · intro hrf
    subst hrf
    rw [hclose]
    simp only [if_neg (by simp : ¬(false = true))]
    exact fsRead_fsRemove_self _ tp
  · rw [hclose]
    exact lookup_eraseKey_self st.openFiles p
  · intro w hw hmem
    rw [hclose] at hmem
    simp only [List.mem_filter, Bool.not_eq_true'] at hmem
    rcases hmem with ⟨-, hpred⟩
    have hcontains : ws.contains w = true := by
      simpa using List.elem_iff.mpr hw
    rw [hcontains] at hpred
    cases hpred
  · intro hrf
    subst hrf
    rw [hclose]
    simp

/-- Witness for C3 at concrete inputs. -/
theorem C3_close_durability_witness :
    (∃ env, fsRead (NotesProvider.closeNote stC3 "d/n.enc" "tmp1" "pw" iv12 [1, 2] false).1.fs
        "d/n.enc" = some (.record env) ∧ EncryptionService.decrypt env "pw" = .ok [104])
    ∧ fsRead (NotesProvider.closeNote stC3 "d/n.enc" "tmp1" "pw" iv12 [1, 2] false).1.fs
        "tmp1" = none
    ∧ (NotesProvider.closeNote stC3 "d/n.enc" "tmp1" "pw" iv12
        [1, 2] false).1.openFiles.lookup "d/n.enc" = none :=
  have h := C3_close_durability stC3 "d/n.enc" "tmp1" "pw" iv12 [1, 2] false [104]
    { tempPath := "tmp1", watchers := [1, 2] } rfl rfl rfl rfl (by decide) (by decide)
    (by decide)
  ⟨h.1, h.2.1 rfl, h.2.2.1⟩

theorem endsWithL_iff (s t : List Char) : endsWithL s t = true ↔ t <:+ s := by
  constructor
  · intro h
    rw [endsWithL, Bool.and_eq_true] at h
    rcases h with ⟨hlen, hdrop⟩
    have hlen2 : t.length ≤ s.length := of_decide_eq_true hlen
    have hdrop2 : s.drop (s.length - t.length) = t := by
      simpa using hdrop
    have htad := List.take_append_drop (s.length - t.length) s
    rw [hdrop2] at htad
    exact ⟨s.take (s.length - t.length), htad⟩
  · rintro ⟨a, rfl⟩
    have h1 : (a ++ t).length - t.length = a.length := by simp
    simp [endsWithL, h1, List.drop_left]

theorem endsWithS_append_of (a s t : String) (h : endsWithS s t = true) :
    endsWithS (a ++ s) t = true := by
  rw [endsWithS, String.data_append, endsWithL_iff]
  rw [endsWithS, endsWithL_iff] at h
  exact h.trans (List.suffix_append a.data s.data)

theorem getLast?_of_endsWithL {s t : List Char} (h : endsWithL s t = true) (hne : t ≠ []) :
    s.getLast? = t.getLast? := by
  rw [endsWithL_iff] at h
  rcases h with ⟨a, rfl⟩
  exact List.getLast?_append_of_ne_nil a hne

theorem natDigits_ne_nil (n : Nat) : natDigits n ≠ [] := by
  rw [natDigits, natDigitsAux]
  split
  · simp
  · simp

theorem natDigits_getLast (n : Nat) :
    ∃ d, d < 10 ∧ (natDigits n).getLast? = some (hexDigitChar d) := by
  rw [natDigits, natDigitsAux]
  split
  · next h => exact ⟨n, h, rfl⟩
  · next h =>
    exact ⟨n % 10, Nat.mod_lt _ (by omega), List.getLast?_concat _⟩

theorem stagingPath_getLast (item : NoteItem) (now : Nat) :
    ∃ d, d < 10 ∧ (stagingPath item now).data.getLast? = some (hexDigitChar d) := by
  obtain ⟨d, hd, hlast⟩ := natDigits_getLast now
  refine ⟨d, hd, ?_⟩
  have hnd : (natStr now).data = natDigits now := rfl
  rw [stagingPath, String.data_append, hnd,
    List.getLast?_append_of_ne_nil _ (natDigits_ne_nil now)]
  exact hlast

theorem stagingPath_not_enc (item : NoteItem) (now : Nat) :
    endsWithS (stagingPath item now) ".enc" = false := by
  cases hx : endsWithS (stagingPath item now) ".enc" with
  | false => rfl
  | true =>
    exfalso
    have hlast : (stagingPath item now).data.getLast? = some 'c' :=
      getLast?_of_endsWithL hx (by decide)
    obtain ⟨d, hd, hlast2⟩ := stagingPath_getLast item now
    have heq : hexDigitChar d = 'c' := by
      have h2 := hlast2.symm.trans hlast
      exact Option.some.inj h2
    have hno : ∀ d2, d2 < 10 → hexDigitChar d2 ≠ 'c' := by decide
    exact hno d hd heq

/-- C7 counterexample — persist does not overwrite atomically by
write-then-replace: at a concrete state the fs trace of
`saveEncryptedNote` contains no rename, and under non-atomic direct
write semantics a concurrent reader can observe at the persistent path
a value that is neither the old envelope nor the complete new envelope
and that fails to decrypt — a half-written envelope. -/
theorem C7_counterexample :
    c7Trace.any FsOp.isRename = false
    ∧ ((obsStates c7Trace c7St.fs).any fun m =>
        match fsRead m "d/n.enc" with
        | some v => decide (v ≠ c7OldEnv) && decide (v ≠ c7NewEnv)
            && decide (decryptVal v "pw" = .error .decryptionError)
        | none => false) = true := by
  constructor
  · decide
  · decide

/-- C7 amended — persist re-encrypts the staging-copy content and
overwrites the persistent path with one direct `fs.writeFile` (the
trace is exactly read-then-direct-write, with no rename/replace step);
after completion the persistent path holds the fresh envelope, but no
write-then-replace atomicity against concurrent readers is provided by
the code. -/
theorem C7_amended (st : SysState) (tp ep pw : String) (iv : List Nat) (c : List Nat)
    (h : fsRead st.fs tp = some (.text c)) :
    NotesProvider.saveEncryptedNote st tp ep pw iv
      = ({ st with fs := fsWrite st.fs ep (.record (EncryptionService.encrypt c pw iv)) },
         [.read tp, .write ep (.record (EncryptionService.encrypt c pw iv))])
    ∧ fsRead (NotesProvider.saveEncryptedNote st tp ep pw iv).1.fs ep
      = some (.record (EncryptionService.encrypt c pw iv))
    ∧ (NotesProvider.saveEncryptedNote st tp ep pw iv).2.any FsOp.isRename = false := by
  have hsave : NotesProvider.saveEncryptedNote st tp ep pw iv
      = ({ st with fs := fsWrite st.fs ep (.record (EncryptionService.encrypt c pw iv)) },
         [.read tp, .write ep (.record (EncryptionService.encrypt c pw iv))]) := by
    simp [NotesProvider.saveEncryptedNote, h]
  refine ⟨hsave, ?_, ?_⟩
  · rw [hsave]
    exact fsRead_fsWrite_self _ _ _
  · rw [hsave]
    simp [FsOp.isRename]

/-- Witness for the amended C7 at concrete inputs. -/
theorem C7_amended_witness :
    NotesProvider.saveEncryptedNote c7St "t" "d/n.enc" "pw" iv12
      = ({ c7St with
            fs := (fsWrite c7St.fs "d/n.enc"
              (.record (EncryptionService.encrypt [104, 105] "pw" iv12))) },
         [.read "t",
          .write "d/n.enc" (.record (EncryptionService.encrypt [104, 105] "pw" iv12))])
    ∧ (NotesProvider.saveEncryptedNote c7St "t" "d/n.enc" "pw" iv12).2.any FsOp.isRename
      = false :=
  have h := C7_amended c7St "t" "d/n.enc" "pw" iv12 [104, 105] rfl
  ⟨h.1, h.2.2⟩

/-- C9 counterexample — the staging copy is not written under the
note's display extension: at a concrete input the unique plaintext
write of `openNote` targets `/globalStorage/temp/n.md_0`, whose name
ends with the `'_' + Date.now()` uniquifier rather than with `.md`. -/
theorem C9_counterexample :
    (NotesProvider.openNote c9St (some cfgA) itemA 0 1 2).2.2
      = [.read "d/n.enc", .write "/globalStorage/temp/n.md_0" (.text [104])]
    ∧ endsWithS "/globalStorage/temp/n.md_0" ".md" = false := by
  constructor
  · decide
  · decide

/-- C9 amended — extension discipline as the code implements it:
items built by the tree listing have persistent paths ending in
`.enc`; the staging copy is written only at
`tempDir/<base>.md_<timestamp>`, which carries the display extension
as an infix plus the uniquifying suffix and never ends in `.enc`; the
staging lifecycle writes plaintext only at that staging path and
envelopes only at the persistent `.enc` path. -/
theorem C9_amended (dir fname : String) (item : NoteItem) (now : Nat)
    (hitem : noteItemOfFile dir fname = some item) :
    endsWithS item.filePath ".enc" = true
    ∧ endsWithS (stagingPath item now) ".enc" = false
    ∧ (∀ (st : SysState) (cfg : NotesConfig) (w1 w2 : Nat) (p : String) (v : FsVal),
        FsOp.write p v ∈ (NotesProvider.openNote st (some cfg) item now w1 w2).2.2 →
        p = stagingPath item now ∧ ∃ bs, v = FsVal.text bs)
    ∧ (∀ (st : SysState) (tp pw : String) (iv ws : List Nat) (rf : Bool)
        (p : String) (v : FsVal),
        FsOp.write p v ∈ (NotesProvider.closeNote st item.filePath tp pw iv ws rf).2 →
        p = item.filePath ∧ ∃ r, v = FsVal.record r) := by
  have hitem2 : endsWithS fname ".enc" = true ∧ item.filePath = dir ++ "/" ++ fname := by
    by_cases h : endsWithS fname ".enc" = true
    · rw [noteItemOfFile, if_pos h] at hitem
      obtain rfl := Option.some.inj hitem
      exact ⟨h, rfl⟩
    · rw [noteItemOfFile, if_neg h] at hitem
      cases hitem
  refine ⟨?_, stagingPath_not_enc item now, ?_, ?_⟩
  · rw [hitem2.2]
    exact endsWithS_append_of (dir ++ "/") fname ".enc" hitem2.1
  · intro st cfg w1 w2 p v hmem
    by_cases hdir : item.isDirectory
    · simp [NotesProvider.openNote, hdir] at hmem
    · simp only [Bool.not_eq_true] at hdir
      cases hs : st.openFiles.lookup item.filePath with
      | some s => simp [NotesProvider.openNote, hdir, hs] at hmem
      | none =>
        cases hv : fsRead st.fs item.filePath with
        | none => simp [NotesProvider.openNote, hdir, hs, hv] at hmem
        | some v0 =>
          cases hd : decryptVal v0 cfg.encryptionPassword with
          | error e => simp [NotesProvider.openNote, hdir, hs, hv, hd] at hmem
          | ok pt =>
            simp [NotesProvider.openNote, hdir, hs, hv, hd, List.mem_cons] at hmem
            exact ⟨hmem.1, pt, hmem.2⟩
  · intro st tp pw iv ws rf p v hmem
    cases htp : fsRead st.fs tp with
    | none => cases rf <;> simp [NotesProvider.closeNote, htp] at hmem
    | some v0 =>
      cases v0 with
      | record r => cases rf <;> simp [NotesProvider.closeNote, htp] at hmem
      | text c =>
        cases rf with
        | true =>
          simp [NotesProvider.closeNote, htp, List.mem_cons] at hmem
          exact ⟨hmem.1, _, hmem.2⟩
        | false =>
          simp [NotesProvider.closeNote, htp, List.mem_cons] at hmem
          exact ⟨hmem.1, _, hmem.2⟩

/-- Witness for the amended C9 at concrete inputs. -/
theorem C9_amended_witness :
    endsWithS itemA.filePath ".enc" = true
    ∧ endsWithS (stagingPath itemA 7) ".enc" = false :=
  ⟨(C9_amended "d" "n.enc" itemA 7 (by decide)).1,
   (C9_amended "d" "n.enc" itemA 7 (by decide)).2.1⟩
